import Mathlib

set_option autoImplicit false

/-
Verification of the routine image-color pipeline (brnstz/routine).

The development shallowly embeds the Go sources:
  * src/wikimg/wikimg.go : the Puller pager (NextURL), request building,
    the firstColor pixel scan, and Image.Cancel;
  * the part_001 variant of Next (strict count > max comparison);
  * src/07.go : colorCache (Add/Get) and the caching worker;
  * src/06.go : the worker select over response/cancel/timeout.

Network and image decoding are external effects; they are modelled as
oracle arguments (a fetch function from the request parameters to a
response, a compute function from a URL to a result, and the pixel grid
of a decoded image), so every definition stays executable.
-/

namespace Routine

/-- apiMax is the max results we can request from the API at one time
(wikimg.go line 35). -/
def apiMax : Int := 500

/-- queryResp mirrors the JSON structure returned by queryURL: the two
continuation strings and the list of image URLs (wikimg.go lines 40-55). -/
structure QueryResp where
  cont : String
  aicontinue : String
  allImages : List String
deriving DecidableEq, Repr

/-- The queryResp zero value, as allocated by Go before json.Unmarshal
(wikimg.go line 138).  A failed Unmarshal may in reality leave the struct
partially filled; no claim depends on that detail. -/
def emptyQueryResp : QueryResp :=
  { cont := "", aicontinue := "", allImages := [] }

/-- Puller state (wikimg.go lines 59-71): the most recent page, the index
into it, the running count, and the configured max.  Go declares i, count
and max as int; i and count only ever hold non-negative values, so they are
carried as Nat, while max keeps full Int range (it may be negative). -/
structure Puller where
  qr : Option QueryResp
  i : Nat
  count : Nat
  max : Int
deriving DecidableEq, Repr

/-- NewPuller (wikimg.go lines 75-79): only max is set, the rest is zero. -/
def newPuller (max : Int) : Puller :=
  { qr := none, i := 0, count := 0, max := max }

/-- The query parameters NextURL sends upstream (wikimg.go lines 101-122).
The five constant parameters are carried verbatim; ailimit and the two
continuation parameters are the computed ones. -/
structure ApiRequest where
  action : String
  format : String
  list : String
  aidir : String
  aisort : String
  ailimit : Int
  continueParam : Option String
  aicontinueParam : Option String
deriving DecidableEq, Repr

/-- The fixed parameters set on every request (wikimg.go lines 101-106),
before ailimit and the continuation values are filled in. -/
def baseRequest : ApiRequest :=
  { action := "query", format := "json", list := "allimages",
    aidir := "descending", aisort := "timestamp",
    ailimit := 0, continueParam := none, aicontinueParam := none }

/-- The ailimit value (wikimg.go lines 110-114): if count+apiMax > max then
max-count else max.  Note the else branch sends p.max itself, not apiMax. -/
def ailimitFor (p : Puller) : Int :=
  if (p.count : Int) + apiMax > p.max then p.max - (p.count : Int) else p.max

/-- The full request NextURL builds (wikimg.go lines 101-122): base
parameters, the ailimit branch, and then both continuation parameters when
the previous response carries both non-empty, otherwise neither. -/
def buildRequest (p : Puller) : ApiRequest :=
  match p.qr with
  | some qr =>
    if 0 < qr.cont.length ∧ 0 < qr.aicontinue.length then
      { baseRequest with
        ailimit := ailimitFor p,
        continueParam := some qr.cont,
        aicontinueParam := some qr.aicontinue }
    else
      { baseRequest with ailimit := ailimitFor p }
  | none => { baseRequest with ailimit := ailimitFor p }

/-- Result of one upstream HTTP interaction, as distinguished by the three
early returns in NextURL: http.Get failure, ReadAll failure, Unmarshal
failure, or a parsed page. -/
inductive FetchResult where
  | transportErr
  | readErr
  | parseErr
  | ok (qr : QueryResp)
deriving DecidableEq, Repr

/-- Outcome of one NextURL call: a URL, EndOfResults, or one of the three
error returns. -/
inductive NextOutcome where
  | url (u : String)
  | endOfResults
  | transportError
  | readError
  | parseError
deriving DecidableEq, Repr

/-- The fetch-a-new-page path of NextURL (wikimg.go lines 98-151): reset i
to 0, build the parameters, perform the request, store the parsed page,
return EndOfResults on an empty page, else count++ and return the page's
first URL (AllImages[p.i] with p.i = 0).  The third component records the
request that was issued (none means no upstream call). -/
def fetchStep (p : Puller) (fetch : ApiRequest → FetchResult) :
    NextOutcome × Puller × Option ApiRequest :=
  let p2 : Puller := { p with i := 0 }
  let req : ApiRequest := buildRequest p2
  match fetch req with
  | FetchResult.transportErr => (NextOutcome.transportError, p2, some req)
  | FetchResult.readErr => (NextOutcome.readError, p2, some req)
  | FetchResult.parseErr =>
    (NextOutcome.parseError, { p2 with qr := some emptyQueryResp }, some req)
  | FetchResult.ok qr =>
    let p3 : Puller := { p2 with qr := some qr }
    if qr.allImages.isEmpty then
      (NextOutcome.endOfResults, p3, some req)
    else
      (NextOutcome.url (qr.allImages.headD ""),
       { p3 with count := p3.count + 1 }, some req)

/-- NextURL (wikimg.go lines 83-152): stop when count has reached max;
serve from the current page while the index is within it; otherwise fetch
a new page. -/
def nextURL (p : Puller) (fetch : ApiRequest → FetchResult) :
    NextOutcome × Puller × Option ApiRequest :=
  if (p.count : Int) ≥ p.max then (NextOutcome.endOfResults, p, none)
  else
    match p.qr with
    | some qr =>
      if h : p.i < qr.allImages.length then
        (NextOutcome.url (qr.allImages.get ⟨p.i, h⟩),
         { p with i := p.i + 1, count := p.count + 1 }, none)
      else fetchStep p fetch
    | none => fetchStep p fetch

/-- The part_001 variant of Next (lines 529-542 of the unnamed sources):
identical to NextURL except that the terminal test is the strict
comparison count > max instead of count >= max. -/
def nextVariant (p : Puller) (fetch : ApiRequest → FetchResult) :
    NextOutcome × Puller × Option ApiRequest :=
  if (p.count : Int) > p.max then (NextOutcome.endOfResults, p, none)
  else
    match p.qr with
    | some qr =>
      if h : p.i < qr.allImages.length then
        (NextOutcome.url (qr.allImages.get ⟨p.i, h⟩),
         { p with i := p.i + 1, count := p.count + 1 }, none)
      else fetchStep p fetch
    | none => fetchStep p fetch

/-- Puller state after n successive calls to NextURL (each call continues
from the state the previous one left behind). -/
def runCalls (fetch : ApiRequest → FetchResult) : Nat → Puller → Puller
  | 0, p => p
  | n + 1, p => (nextURL (runCalls fetch n p) fetch).2.1

/-- Whether the puller still has unreturned items on its current page
(the condition of wikimg.go line 91). -/
def Puller.hasCurrent (p : Puller) : Bool :=
  match p.qr with
  | some qr => p.i < qr.allImages.length
  | none => false

/-- A fetch oracle that always serves one fixed page with a single URL. -/
def onePageFetch : ApiRequest → FetchResult :=
  fun _ => FetchResult.ok { cont := "", aicontinue := "", allImages := ["u1"] }

theorem nextURL_stop {p : Puller} (fetch : ApiRequest → FetchResult)
    (h : (p.count : Int) ≥ p.max) :
    nextURL p fetch = (NextOutcome.endOfResults, p, none) := by
  unfold nextURL
  rw [if_pos h]

theorem nextURL_within_page {p : Puller} {qr : QueryResp}
    (fetch : ApiRequest → FetchResult)
    (hlt : ¬ (p.count : Int) ≥ p.max) (hqr : p.qr = some qr)
    (hi : p.i < qr.allImages.length) :
    nextURL p fetch =
      (NextOutcome.url (qr.allImages.get ⟨p.i, hi⟩),
       { p with i := p.i + 1, count := p.count + 1 }, none) := by
  unfold nextURL
  rw [if_neg hlt, hqr]
  simp [hi]

theorem nextURL_fetches {p : Puller} (fetch : ApiRequest → FetchResult)
    (hlt : ¬ (p.count : Int) ≥ p.max) (hcur : p.hasCurrent = false) :
    nextURL p fetch = fetchStep p fetch := by
  unfold nextURL
  rw [if_neg hlt]
  unfold Puller.hasCurrent at hcur
  match hq : p.qr with
  | none => simp
  | some qr =>
    rw [hq] at hcur
    simp only [decide_eq_false_iff_not] at hcur
    simp [hcur]

/-- C10: a Puller created with max ≤ 0 answers every call with EndOfResults,
issues no upstream request, and never changes state: after any number of
calls the state is still exactly newPuller max, and the next call again
returns ("", EndOfResults) with no request. -/
theorem puller_nonpositive_max (m : Int) (hm : m ≤ 0)
    (fetch : ApiRequest → FetchResult) (n : Nat) :
    runCalls fetch n (newPuller m) = newPuller m
    ∧ nextURL (newPuller m) fetch =
        (NextOutcome.endOfResults, newPuller m, none) := by
  have hstop : ((newPuller m).count : Int) ≥ (newPuller m).max := by
    simp only [newPuller]
    omega
  have hone : nextURL (newPuller m) fetch =
      (NextOutcome.endOfResults, newPuller m, none) := nextURL_stop fetch hstop
  refine ⟨?_, hone⟩
  induction n with
  | zero => rfl
  | succ k ih =>
    unfold runCalls
    rw [ih, hone]

/-- Witness for puller_nonpositive_max at m = -2, a constant transport-error
fetch oracle, and n = 3 calls. -/
theorem puller_nonpositive_max_witness :
    (-2 : Int) ≤ 0
    ∧ runCalls (fun _ => FetchResult.transportErr) 3 (newPuller (-2)) =
        newPuller (-2)
    ∧ nextURL (newPuller (-2)) (fun _ => FetchResult.transportErr) =
        (NextOutcome.endOfResults, newPuller (-2), none) :=
  ⟨by decide,
   (puller_nonpositive_max (-2) (by decide) (fun _ => FetchResult.transportErr) 3).1,
   (puller_nonpositive_max (-2) (by decide) (fun _ => FetchResult.transportErr) 3).2⟩

/-- C3 evaluation: for a fresh Puller with max = 1000 the fetch issued by
NextURL carries ailimit = 1000, while min(apiMax, max - count) = 500:
the else branch of wikimg.go line 113 sends p.max instead of capping at
apiMax, contradicting the adjacent comment that 500 is the most the API
allows per request. -/
theorem ailimit_exceeds_api_max :
    (nextURL (newPuller 1000) (fun _ => FetchResult.transportErr)).2.2 =
      some (buildRequest (newPuller 1000))
    ∧ (buildRequest (newPuller 1000)).ailimit = 1000
    ∧ min apiMax ((newPuller 1000).max - ((newPuller 1000).count : Int)) = 500
    ∧ (buildRequest (newPuller 1000)).ailimit ≠
        min apiMax ((newPuller 1000).max - ((newPuller 1000).count : Int)) := by
  refine ⟨rfl, by decide, by decide, by decide⟩

/-- C6 evaluation: the part_001 variant of Next tests count > max instead
of count ≥ max, so a variant Puller with max = 0 (count = 0 = max) fetches
a page and returns a URL where the claim — and NextURL itself — give
EndOfResults. -/
theorem variant_next_offbyone :
    (nextVariant (newPuller 0) onePageFetch).1 = NextOutcome.url "u1"
    ∧ ((newPuller 0).count : Int) ≥ (newPuller 0).max
    ∧ (nextVariant (newPuller 0) onePageFetch).2.1.count = 1
    ∧ (nextURL (newPuller 0) onePageFetch).1 = NextOutcome.endOfResults := by
  refine ⟨rfl, by decide, rfl, rfl⟩

/-- Supporting characterisation of the main NextURL terminal condition:
the outcome is EndOfResults exactly when count ≥ max already held, or the
current page was exhausted and the upstream returned an empty page. -/
theorem nextURL_current_url {p : Puller} (fetch : ApiRequest → FetchResult)
    (hlt : ¬ (p.count : Int) ≥ p.max) (hcur : p.hasCurrent = true) :
    ∃ u, (nextURL p fetch).1 = NextOutcome.url u := by
  unfold Puller.hasCurrent at hcur
  match hq : p.qr with
  | none => rw [hq] at hcur; exact absurd hcur (by simp)
  | some qr =>
    rw [hq] at hcur
    simp only [decide_eq_true_eq] at hcur
    exact ⟨qr.allImages.get ⟨p.i, hcur⟩,
      by rw [nextURL_within_page fetch hlt hq hcur]⟩

theorem nextURL_endOfResults_iff (p : Puller) (fetch : ApiRequest → FetchResult) :
    (nextURL p fetch).1 = NextOutcome.endOfResults ↔
      ((p.count : Int) ≥ p.max
       ∨ (p.hasCurrent = false
          ∧ ∃ qr, fetch (buildRequest { p with i := 0 }) = FetchResult.ok qr
              ∧ qr.allImages = [])) := by
  by_cases hstop : (p.count : Int) ≥ p.max
  · rw [nextURL_stop fetch hstop]
    simp [hstop]
  · match hcur : p.hasCurrent with
    | true =>
      obtain ⟨u, hu⟩ := nextURL_current_url fetch hstop hcur
      rw [hu]
      simp [hstop, hcur]
    | false =>
      rw [nextURL_fetches fetch hstop hcur]
      unfold fetchStep
      simp only
      match hf : fetch (buildRequest { p with i := 0 }) with
      | FetchResult.transportErr => simp [hstop, hf]
      | FetchResult.readErr => simp [hstop, hf]
      | FetchResult.parseErr => simp [hstop, hf]
      | FetchResult.ok qr =>
        by_cases hemp : qr.allImages.isEmpty
        · have hnil : qr.allImages = [] := List.isEmpty_iff.mp hemp
          simp [hf, hemp, hcur, hnil, hstop]
        · have hne : ¬ qr.allImages = [] := by
            intro hc
            rw [hc] at hemp
            exact hemp rfl
          simp [hf, hemp, hstop, hne]

theorem fetchStep_request (p : Puller) (fetch : ApiRequest → FetchResult) :
    (fetchStep p fetch).2.2 = some (buildRequest { p with i := 0 }) := by
  unfold fetchStep
  simp only
  match hf : fetch (buildRequest { p with i := 0 }) with
  | FetchResult.transportErr => rfl
  | FetchResult.readErr => rfl
  | FetchResult.parseErr => rfl
  | FetchResult.ok qr =>
    by_cases hemp : qr.allImages.isEmpty <;> simp [hemp]

theorem nextURL_request_eq {p : Puller} {fetch : ApiRequest → FetchResult}
    {req : ApiRequest} (h : (nextURL p fetch).2.2 = some req) :
    req = buildRequest { p with i := 0 } := by
  unfold nextURL at h
  by_cases hstop : (p.count : Int) ≥ p.max
  · rw [if_pos hstop] at h
    exact absurd h (by simp)
  · rw [if_neg hstop] at h
    match hq : p.qr with
    | some qr =>
      rw [hq] at h
      by_cases hi : p.i < qr.allImages.length
      · simp [hi] at h
      · simp only [hi, dite_false, dif_neg, not_false_iff] at h
        rw [fetchStep_request p fetch] at h
        rw [hq] at h
        exact (Option.some_inj.mp h).symm
    | none =>
      rw [hq] at h
      rw [fetchStep_request p fetch] at h
      rw [hq] at h
      exact (Option.some_inj.mp h).symm

/-- C8: any upstream request issued by NextURL carries the continuation
cursor atomically — the continue and aicontinue parameters are present
together exactly when the previously fetched page holds both non-empty,
and are absent together otherwise; never exactly one of the two. -/
theorem cursor_both_or_neither (p : Puller) (fetch : ApiRequest → FetchResult)
    (req : ApiRequest) (h : (nextURL p fetch).2.2 = some req) :
    (req.continueParam.isSome ↔ req.aicontinueParam.isSome)
    ∧ (∀ qr, p.qr = some qr → 0 < qr.cont.length → 0 < qr.aicontinue.length →
        req.continueParam = some qr.cont
        ∧ req.aicontinueParam = some qr.aicontinue)
    ∧ ((∀ qr, p.qr = some qr → qr.cont.length = 0 ∨ qr.aicontinue.length = 0) →
        req.continueParam = none ∧ req.aicontinueParam = none) := by
  have hreq : req = buildRequest { p with i := 0 } := nextURL_request_eq h
  subst hreq
  unfold buildRequest
  simp only
  match hq : p.qr with
  | none =>
    refine ⟨by simp [baseRequest], ?_, ?_⟩
    · intro qr hq' _ _
      exact absurd hq' (by simp)
    · intro _
      exact ⟨rfl, rfl⟩
  | some qr =>
    by_cases hc : 0 < qr.cont.length ∧ 0 < qr.aicontinue.length
    · refine ⟨by simp [hc], ?_, ?_⟩
      · intro qr' hq' _ _
        cases Option.some_inj.mp hq'
        simp [hc]
      · intro hall
        rcases hall qr rfl with h0 | h0 <;> omega
    · refine ⟨by simp [hc, baseRequest], ?_, ?_⟩
      · intro qr' hq' h1 h2
        cases Option.some_inj.mp hq'
        exact absurd ⟨h1, h2⟩ hc
      · intro _
        simp [hc, baseRequest]

/-- A concrete Puller holding a previously fetched page whose cursor has
both parts non-empty and whose item list is exhausted. -/
def pullerC8 : Puller :=
  { qr := some { cont := "c1", aicontinue := "a1", allImages := [] },
    i := 0, count := 0, max := 5 }

/-- Witness for cursor_both_or_neither: the exhausted pullerC8 issues a
request, and that request carries both cursor parts. -/
theorem cursor_both_or_neither_witness :
    (nextURL pullerC8 onePageFetch).2.2 = some (buildRequest pullerC8)
    ∧ (buildRequest pullerC8).continueParam = some "c1"
    ∧ (buildRequest pullerC8).aicontinueParam = some "a1" :=
  ⟨rfl,
   ((cursor_both_or_neither pullerC8 onePageFetch (buildRequest pullerC8)
      rfl).2.1 _ rfl (by decide) (by decide)).1,
   ((cursor_both_or_neither pullerC8 onePageFetch (buildRequest pullerC8)
      rfl).2.1 _ rfl (by decide) (by decide)).2⟩

/-- imgResponse (src/07.go lines 95-98): a hex color string or an error.
Errors are carried as their message string; none means success. -/
structure ImgResponse where
  hex : String
  err : Option String
deriving DecidableEq, Repr

/-- The Go zero value imgResponse given out by a map miss. -/
def zeroResponse : ImgResponse :=
  { hex := "", err := none }

/-- The Go map string -> imgResponse is modelled as an association list
with unique keys (uniqueness is maintained by mapInsert/mapDelete and is
proved as an invariant where needed). -/
abbrev HMap := List (String × ImgResponse)

/-- Lookup in the map model (Go map read m[k]). -/
def mapFind : HMap → String → Option ImgResponse
  | [], _ => none
  | (k1, v) :: rest, k => if k1 = k then some v else mapFind rest k

/-- Write to the map model (Go map write m[k] = v): replace the existing
entry for the key in place, or append a fresh entry at the end. -/
def mapInsert : HMap → String → ImgResponse → HMap
  | [], k, v => [(k, v)]
  | (k1, v1) :: rest, k, v =>
    if k1 = k then (k, v) :: rest else (k1, v1) :: mapInsert rest k v

/-- Deletion from the map model (Go delete(m, k)): drop the entry for the
key, if present. -/
def mapDelete : HMap → String → HMap
  | [], _ => []
  | (k1, v1) :: rest, k =>
    if k1 = k then rest else (k1, v1) :: mapDelete rest k

/-- The keys of the map model. -/
def keys (m : HMap) : List String := m.map Prod.fst

/-- colorCache (src/07.go lines 26-32): the map, the entry count, the
capacity, and the expiry list.  The mutex only serialises access and has
no sequential content; exp models the container/list with the list head as
the front.  Go declares count and max as int; count only ever holds
non-negative values and is a Nat, max keeps full Int range. -/
structure ColorCache where
  hmap : HMap
  count : Nat
  max : Int
  exp : List String
deriving DecidableEq, Repr

/-- newColorCache (src/07.go lines 35-43). -/
def newColorCache (max : Int) : ColorCache :=
  { hmap := [], count := 0, max := max, exp := [] }

/-- Add (src/07.go lines 45-75).  At capacity the oldest entry — the back
of exp — is deleted from the map and from exp; otherwise count increments.
Then the new url is pushed to the front of exp and stored in the map.
When the eviction branch runs with an empty exp list, exp.Back() is nil
and Go dereferences it: that panic is modelled as none. -/
def ColorCache.add (cc : ColorCache) (url : String) (resp : ImgResponse) :
    Option ColorCache :=
  if (cc.count : Int) ≥ cc.max then
    match cc.exp.getLast? with
    | none => none
    | some backUrl =>
      some { cc with
             hmap := mapInsert (mapDelete cc.hmap backUrl) url resp,
             exp := url :: cc.exp.dropLast }
  else
    some { cc with
           hmap := mapInsert cc.hmap url resp,
           count := cc.count + 1,
           exp := url :: cc.exp }

/-- Get (src/07.go lines 77-85): a pure read returning the stored value
and a found flag; a miss returns the zero value.  Get never modifies the
cache (in particular it does not touch exp, so a read never changes the
eviction order). -/
def ColorCache.get (cc : ColorCache) (url : String) : ImgResponse × Bool :=
  match mapFind cc.hmap url with
  | some resp => (resp, true)
  | none => (zeroResponse, false)

/-- A sequence of Add calls, stopping at the first panic. -/
def addAll (cc : ColorCache) : List (String × ImgResponse) → Option ColorCache
  | [] => some cc
  | (url, resp) :: rest =>
    match cc.add url resp with
    | some cc2 => addAll cc2 rest
    | none => none

/-- One worker iteration (src/07.go lines 102-118): consult the cache; on
a hit reuse the stored response; on a miss run FirstColor (the compute
oracle) and Add the response — whether or not it carries an error.  The
Bool records whether the expensive computation ran; none models the
eviction panic propagating out of Add. -/
def workerStep (cc : ColorCache) (url : String)
    (compute : String → ImgResponse) :
    Option (ImgResponse × ColorCache × Bool) :=
  match cc.get url with
  | (resp, true) => some (resp, cc, false)
  | (_, false) =>
    let resp := compute url
    match cc.add url resp with
    | some cc2 => some (resp, cc2, true)
    | none => none

theorem mapFind_mapInsert_self (m : HMap) (k : String) (v : ImgResponse) :
    mapFind (mapInsert m k v) k = some v := by
  induction m with
  | nil => simp [mapInsert, mapFind]
  | cons hd tl ih =>
    obtain ⟨k1, v1⟩ := hd
    by_cases hk : k1 = k
    · simp [mapInsert, hk, mapFind]
    · simp [mapInsert, hk, mapFind, ih]

theorem mapFind_mapInsert_ne (m : HMap) (k k2 : String) (v : ImgResponse)
    (hne : k2 ≠ k) : mapFind (mapInsert m k v) k2 = mapFind m k2 := by
  have hkk2 : ¬ k = k2 := fun h => hne h.symm
  induction m with
  | nil => simp [mapInsert, mapFind, hkk2]
  | cons hd tl ih =>
    obtain ⟨k1, v1⟩ := hd
    by_cases hk : k1 = k
    · subst hk
      simp [mapInsert, mapFind, hkk2]
    · simp only [mapInsert, if_neg hk]
      by_cases hk2 : k1 = k2
      · simp [mapFind, hk2]
      · simp [mapFind, hk2, ih]

theorem keys_mapInsert (m : HMap) (k : String) (v : ImgResponse) :
    keys (mapInsert m k v) = if k ∈ keys m then keys m else keys m ++ [k] := by
  induction m with
  | nil => simp [mapInsert, keys]
  | cons hd tl ih =>
    obtain ⟨k1, v1⟩ := hd
    by_cases hk : k1 = k
    · subst hk
      simp [mapInsert, keys]
    · have hne : ¬ k = k1 := fun h => hk h.symm
      simp only [mapInsert, if_neg hk]
      simp only [keys, List.map_cons] at ih ⊢
      rw [ih]
      by_cases hmem : k ∈ List.map Prod.fst tl <;>
        simp [hmem, hne]

theorem mapDelete_sublist (m : HMap) (k : String) :
    List.Sublist (mapDelete m k) m := by
  induction m with
  | nil => simp [mapDelete]
  | cons hd tl ih =>
    obtain ⟨k1, v1⟩ := hd
    by_cases hk : k1 = k
    · simp only [mapDelete, hk, if_pos]
      exact List.sublist_cons_self _ _
    · simp only [mapDelete, hk, if_neg, not_false_iff]
      exact List.Sublist.cons₂ _ ih

theorem keys_mapDelete_sublist (m : HMap) (k : String) :
    List.Sublist (keys (mapDelete m k)) (keys m) :=
  List.Sublist.map Prod.fst (mapDelete_sublist m k)

theorem mem_keys_mapDelete {m : HMap} {a k : String}
    (hnd : (keys m).Nodup) (ha : a ∈ keys (mapDelete m k)) :
    a ∈ keys m ∧ a ≠ k := by
  induction m with
  | nil => simp [mapDelete, keys] at ha
  | cons hd tl ih =>
    obtain ⟨k1, v1⟩ := hd
    simp only [keys, List.map_cons, List.nodup_cons] at hnd
    by_cases hk : k1 = k
    · rw [show mapDelete ((k1, v1) :: tl) k = tl from by simp [mapDelete, hk]]
        at ha
      have hmem : a ∈ List.map Prod.fst tl := ha
      refine ⟨?_, ?_⟩
      · simp only [keys, List.map_cons, List.mem_cons]
        exact Or.inr hmem
      · intro hak
        rw [hak, ← hk] at hmem
        exact hnd.1 hmem
    · rw [show mapDelete ((k1, v1) :: tl) k = (k1, v1) :: mapDelete tl k from
        by simp [mapDelete, hk]] at ha
      simp only [keys, List.map_cons, List.mem_cons] at ha
      rcases ha with h1 | h2
      · refine ⟨?_, ?_⟩
        · simp only [keys, List.map_cons, List.mem_cons]
          exact Or.inl h1
        · rw [h1]
          intro he
          exact hk he
      · have h2a : a ∈ keys (mapDelete tl k) := h2
        obtain ⟨hmem, hne⟩ := ih hnd.2 h2a
        refine ⟨?_, hne⟩
        simp only [keys, List.map_cons, List.mem_cons]
        exact Or.inr hmem

theorem mapFind_eq_none {m : HMap} {k : String} (h : k ∉ keys m) :
    mapFind m k = none := by
  induction m with
  | nil => rfl
  | cons hd tl ih =>
    obtain ⟨k1, v1⟩ := hd
    simp only [keys, List.map_cons, List.mem_cons, not_or] at h
    have : k1 ≠ k := fun he => h.1 he.symm
    simp only [mapFind, this, if_neg, not_false_iff]
    exact ih (by simpa [keys] using h.2)

theorem mapFind_of_mem_nodup {m : HMap} {k : String} {v : ImgResponse}
    (hnd : (keys m).Nodup) (hmem : (k, v) ∈ m) :
    mapFind m k = some v := by
  induction m with
  | nil => simp at hmem
  | cons hd tl ih =>
    obtain ⟨k1, v1⟩ := hd
    simp only [keys, List.map_cons, List.nodup_cons] at hnd
    rcases List.mem_cons.mp hmem with h1 | h2
    · cases h1
      simp [mapFind]
    · have hne : k1 ≠ k := by
        intro he
        subst he
        exact hnd.1 (by simpa [keys] using List.mem_map_of_mem Prod.fst h2)
      simp only [mapFind, hne, if_neg, not_false_iff]
      exact ih hnd.2 h2

/-- Invariant tying the three mutable cache fields together: the map keys
are distinct, every key is somewhere in the expiry list, the expiry list
has exactly count elements, and count never exceeds the capacity. -/
def CacheInv (cc : ColorCache) : Prop :=
  (keys cc.hmap).Nodup
  ∧ (∀ a, a ∈ keys cc.hmap → a ∈ cc.exp)
  ∧ cc.exp.length = cc.count
  ∧ cc.count ≤ cc.max.toNat

theorem newColorCache_inv (max : Int) : CacheInv (newColorCache max) := by
  refine ⟨List.nodup_nil, ?_, rfl, Nat.zero_le _⟩
  intro a ha
  simp [newColorCache, keys] at ha

theorem add_max {cc cc2 : ColorCache} {url : String} {resp : ImgResponse}
    (hadd : cc.add url resp = some cc2) : cc2.max = cc.max := by
  unfold ColorCache.add at hadd
  by_cases hge : (cc.count : Int) ≥ cc.max
  · rw [if_pos hge] at hadd
    match hback : cc.exp.getLast? with
    | none => rw [hback] at hadd; exact absurd hadd (by simp)
    | some backUrl =>
      rw [hback] at hadd
      cases Option.some_inj.mp hadd
      rfl
  · rw [if_neg hge] at hadd
    cases Option.some_inj.mp hadd
    rfl

theorem add_inv {cc cc2 : ColorCache} {url : String} {resp : ImgResponse}
    (h : CacheInv cc) (hadd : cc.add url resp = some cc2) : CacheInv cc2 := by
  obtain ⟨hnd, hsub, hlen, hcnt⟩ := h
  unfold ColorCache.add at hadd
  by_cases hge : (cc.count : Int) ≥ cc.max
  · rw [if_pos hge] at hadd
    match hback : cc.exp.getLast? with
    | none => rw [hback] at hadd; exact absurd hadd (by simp)
    | some backUrl =>
      rw [hback] at hadd
      cases Option.some_inj.mp hadd
      have hexp : cc.exp.dropLast ++ [backUrl] = cc.exp :=
        List.dropLast_append_getLast? backUrl hback
      have hne : cc.exp ≠ [] := by
        intro hnil
        rw [hnil] at hback
        exact Option.noConfusion hback
      have hndd : (keys (mapDelete cc.hmap backUrl)).Nodup :=
        (keys_mapDelete_sublist cc.hmap backUrl).nodup hnd
      refine ⟨?_, ?_, ?_, ?_⟩
      · rw [keys_mapInsert]
        by_cases hmem : url ∈ keys (mapDelete cc.hmap backUrl)
        · rw [if_pos hmem]
          exact hndd
        · rw [if_neg hmem]
          simp [List.nodup_append, hndd, hmem]
      · intro a ha
        rw [keys_mapInsert] at ha
        by_cases hmem : url ∈ keys (mapDelete cc.hmap backUrl)
        · rw [if_pos hmem] at ha
          obtain ⟨hin, hneq⟩ := mem_keys_mapDelete hnd ha
          have : a ∈ cc.exp.dropLast ++ [backUrl] := by
            rw [hexp]
            exact hsub a hin
          rcases List.mem_append.mp this with h1 | h2
          · exact List.mem_cons_of_mem _ h1
          · exact absurd (List.mem_singleton.mp h2) hneq
        · rw [if_neg hmem] at ha
          rcases List.mem_append.mp ha with h1 | h2
          · obtain ⟨hin, hneq⟩ := mem_keys_mapDelete hnd h1
            have : a ∈ cc.exp.dropLast ++ [backUrl] := by
              rw [hexp]
              exact hsub a hin
            rcases List.mem_append.mp this with h3 | h4
            · exact List.mem_cons_of_mem _ h3
            · exact absurd (List.mem_singleton.mp h4) hneq
          · rw [List.mem_singleton.mp h2]
            exact List.mem_cons_self _ _
      · simp only [List.length_cons, List.length_dropLast]
        have : 1 ≤ cc.exp.length := by
          cases hl : cc.exp with
          | nil => exact absurd hl hne
          | cons x xs => simp
        omega
      · exact hcnt
  · rw [if_neg hge] at hadd
    cases Option.some_inj.mp hadd
    refine ⟨?_, ?_, ?_, ?_⟩
    · rw [keys_mapInsert]
      by_cases hmem : url ∈ keys cc.hmap
      · rw [if_pos hmem]
        exact hnd
      · rw [if_neg hmem]
        simp [List.nodup_append, hnd, hmem]
    · intro a ha
      rw [keys_mapInsert] at ha
      by_cases hmem : url ∈ keys cc.hmap
      · rw [if_pos hmem] at ha
        exact List.mem_cons_of_mem _ (hsub a ha)
      · rw [if_neg hmem] at ha
        rcases List.mem_append.mp ha with h1 | h2
        · exact List.mem_cons_of_mem _ (hsub a h1)
        · rw [List.mem_singleton.mp h2]
          exact List.mem_cons_self _ _
    · simp [hlen]
    · show cc.count + 1 ≤ cc.max.toNat
      omega

theorem add_total {cc : ColorCache} (url : String) (resp : ImgResponse)
    (hmax : 1 ≤ cc.max) (h : CacheInv cc) :
    ∃ cc2, cc.add url resp = some cc2 := by
  obtain ⟨_, _, hlen, _⟩ := h
  unfold ColorCache.add
  by_cases hge : (cc.count : Int) ≥ cc.max
  · rw [if_pos hge]
    have hne : cc.exp ≠ [] := by
      intro hnil
      rw [hnil] at hlen
      simp only [List.length_nil] at hlen
      omega
    have hsome : cc.exp.getLast?.isSome := List.getLast?_isSome.mpr hne
    match hback : cc.exp.getLast? with
    | none => rw [hback] at hsome; exact absurd hsome (by simp)
    | some backUrl => exact ⟨_, rfl⟩
  · rw [if_neg hge]
    exact ⟨_, rfl⟩

theorem addAll_inv {us : List (String × ImgResponse)} :
    ∀ {cc cc2 : ColorCache}, CacheInv cc → addAll cc us = some cc2 →
      CacheInv cc2 ∧ cc2.max = cc.max := by
  induction us with
  | nil =>
    intro cc cc2 h hall
    cases Option.some_inj.mp hall
    exact ⟨h, rfl⟩
  | cons hd tl ih =>
    intro cc cc2 h hall
    obtain ⟨url, resp⟩ := hd
    unfold addAll at hall
    match hstep : cc.add url resp with
    | none => rw [hstep] at hall; exact absurd hall (by simp)
    | some ccmid =>
      rw [hstep] at hall
      obtain ⟨hinv2, hmax2⟩ := ih (add_inv h hstep) hall
      exact ⟨hinv2, hmax2.trans (add_max hstep)⟩

theorem addAll_total {us : List (String × ImgResponse)} :
    ∀ {cc : ColorCache}, 1 ≤ cc.max → CacheInv cc →
      ∃ cc2, addAll cc us = some cc2 := by
  induction us with
  | nil => intro cc _ _; exact ⟨cc, rfl⟩
  | cons hd tl ih =>
    intro cc hmax h
    obtain ⟨url, resp⟩ := hd
    obtain ⟨ccmid, hstep⟩ := add_total url resp hmax h
    have hmax2 : 1 ≤ ccmid.max := by rw [add_max hstep]; exact hmax
    obtain ⟨cc2, hrest⟩ := ih hmax2 (add_inv h hstep)
    refine ⟨cc2, ?_⟩
    unfold addAll
    rw [hstep]
    exact hrest

theorem hmap_length_le {cc : ColorCache} (h : CacheInv cc) :
    cc.hmap.length ≤ cc.max.toNat := by
  obtain ⟨hnd, hsub, hlen, hcnt⟩ := h
  have h1 : cc.hmap.length = (keys cc.hmap).length := by
    simp [keys]
  have h2 : (keys cc.hmap).length ≤ cc.exp.length :=
    (hnd.subperm hsub).length_le
  omega

/-- C9: a Get immediately following a successful Add(url, resp) is a hit
returning exactly the stored response, and a worker that hits the cache
reuses the stored response unchanged — the compute flag is false and the
cache is untouched. -/
theorem cache_hit_returns_stored :
    (∀ (cc : ColorCache) (url : String) (resp : ImgResponse)
        (cc2 : ColorCache),
        cc.add url resp = some cc2 → cc2.get url = (resp, true))
    ∧ (∀ (cc : ColorCache) (url : String) (compute : String → ImgResponse)
        (r : ImgResponse), cc.get url = (r, true) →
          workerStep cc url compute = some (r, cc, false)) := by
  constructor
  · intro cc url resp cc2 hadd
    unfold ColorCache.add at hadd
    by_cases hge : (cc.count : Int) ≥ cc.max
    · rw [if_pos hge] at hadd
      match hback : cc.exp.getLast? with
      | none => rw [hback] at hadd; exact absurd hadd (by simp)
      | some backUrl =>
        rw [hback] at hadd
        cases Option.some_inj.mp hadd
        unfold ColorCache.get
        simp [mapFind_mapInsert_self]
    · rw [if_neg hge] at hadd
      cases Option.some_inj.mp hadd
      unfold ColorCache.get
      simp [mapFind_mapInsert_self]
  · intro cc url compute r hget
    unfold workerStep
    rw [hget]

/-- A successful response used in the witnesses below. -/
def respA : ImgResponse := { hex := "#ff0000", err := none }

/-- Another successful response used in the witnesses below. -/
def respB : ImgResponse := { hex := "#00ff00", err := none }

/-- The cache state after adding respA for url u to an empty cache of
capacity 2. -/
def cacheA : ColorCache :=
  { hmap := [("u", respA)], count := 1, max := 2, exp := ["u"] }

/-- Witness for cache_hit_returns_stored: Add then Get on a concrete
cache, and a worker hit that skips the compute oracle. -/
theorem cache_hit_returns_stored_witness :
    (newColorCache 2).add "u" respA = some cacheA
    ∧ cacheA.get "u" = (respA, true)
    ∧ workerStep cacheA "u" (fun _ => respB) = some (respA, cacheA, false) :=
  ⟨rfl,
   cache_hit_returns_stored.1 (newColorCache 2) "u" respA cacheA rfl,
   cache_hit_returns_stored.2 cacheA "u" (fun _ => respB) respA
     (cache_hit_returns_stored.1 (newColorCache 2) "u" respA cacheA rfl)⟩

/-- An errored response: FirstColor failed (for example with a timeout). -/
def failResp : ImgResponse := { hex := "", err := some "timeout" }

/-- The cache state after the worker stored the errored response. -/
def cacheAfterFail : ColorCache :=
  { hmap := [("u", failResp)], count := 1, max := 2, exp := ["u"] }

/-- C4 evaluation: on a miss whose computation fails, the worker of
src/07.go stores the errored response into the cache unconditionally, and
the next access to the same URL is a hit served from the cache with the
stored error — the lookup is never retried.  This contradicts the claimed
policy that only successful computations are cached. -/
theorem worker_caches_failure :
    failResp.err ≠ none
    ∧ workerStep (newColorCache 2) "u" (fun _ => failResp) =
        some (failResp, cacheAfterFail, true)
    ∧ cacheAfterFail.get "u" = (failResp, true)
    ∧ workerStep cacheAfterFail "u" (fun _ => respB) =
        some (failResp, cacheAfterFail, false) := by
  refine ⟨by simp [failResp], rfl, rfl, rfl⟩

theorem mapInsert_append {m : HMap} {k : String} (v : ImgResponse)
    (h : k ∉ keys m) : mapInsert m k v = m ++ [(k, v)] := by
  induction m with
  | nil => rfl
  | cons hd tl ih =>
    obtain ⟨k1, v1⟩ := hd
    simp only [keys, List.map_cons, List.mem_cons, not_or] at h
    have hne : ¬ k1 = k := fun he => h.1 he.symm
    simp only [mapInsert, if_neg hne, List.cons_append]
    rw [ih (by simpa [keys] using h.2)]

/-- Intermediate shape of a cache filled from empty with the entries vs,
no eviction yet: the map holds vs in insertion order, count is the number
of entries, and exp holds the keys most-recent-first. -/
def fillState (vs : List (String × ImgResponse)) (M : Int) : ColorCache :=
  { hmap := vs, count := vs.length, max := M, exp := (keys vs).reverse }

theorem fill_step {vs : List (String × ImgResponse)} {M : Int} {url : String}
    (resp : ImgResponse) (hlt : (vs.length : Int) < M)
    (hnot : url ∉ keys vs) :
    (fillState vs M).add url resp =
      some (fillState (vs ++ [(url, resp)]) M) := by
  simp only [ColorCache.add, fillState]
  rw [if_neg (not_le.mpr hlt)]
  simp [mapInsert_append resp hnot, keys]

theorem fill_all {M : Int} (us : List (String × ImgResponse)) :
    ∀ vs : List (String × ImgResponse),
      (keys (vs ++ us)).Nodup → ((vs ++ us).length : Int) ≤ M →
      addAll (fillState vs M) us = some (fillState (vs ++ us) M) := by
  induction us with
  | nil =>
    intro vs hnd hlen
    simp [addAll]
  | cons hd tl ih =>
    intro vs hnd hlen
    obtain ⟨url, resp⟩ := hd
    have hkeys : keys (vs ++ (url, resp) :: tl) = keys vs ++ url :: keys tl := by
      simp [keys]
    rw [hkeys] at hnd
    have hnot : url ∉ keys vs := by
      intro hmem
      rcases List.nodup_append.mp hnd with ⟨_, _, hdisj⟩
      exact hdisj hmem (by simp)
    have hlt : (vs.length : Int) < M := by
      rw [List.length_append, List.length_cons] at hlen
      omega
    unfold addAll
    rw [fill_step resp hlt hnot]
    have hnd2 : (keys ((vs ++ [(url, resp)]) ++ tl)).Nodup := by
      rw [show (vs ++ [(url, resp)]) ++ tl = vs ++ (url, resp) :: tl by simp]
      rw [hkeys]
      exact hnd
    have hlen2 : (((vs ++ [(url, resp)]) ++ tl).length : Int) ≤ M := by
      rw [show (vs ++ [(url, resp)]) ++ tl = vs ++ (url, resp) :: tl by simp]
      exact hlen
    have h2 := ih (vs ++ [(url, resp)]) hnd2 hlen2
    rw [show (vs ++ [(url, resp)]) ++ tl = vs ++ (url, resp) :: tl by simp]
      at h2
    exact h2

theorem fill_overflow {u0 : String} {r0 : ImgResponse}
    {ft : List (String × ImgResponse)} {ul : String} (rl : ImgResponse)
    {M : Int} (hM : M = (((u0, r0) :: ft).length : Int))
    (hul : ul ∉ keys ((u0, r0) :: ft)) :
    (fillState ((u0, r0) :: ft) M).add ul rl =
      some (fillState (ft ++ [(ul, rl)]) M) := by
  have hulft : ul ∉ keys ft := by
    intro hmem
    exact hul (by simp [keys] at hmem ⊢; exact Or.inr hmem)
  simp only [ColorCache.add, fillState]
  rw [if_pos (le_of_eq hM)]
  rw [List.getLast?_reverse]
  simp only [keys, List.map_cons, List.head?_cons]
  simp [mapDelete, mapInsert_append rl hulft, keys, List.dropLast_concat]

theorem addAll_append (cc : ColorCache) (xs ys : List (String × ImgResponse)) :
    addAll cc (xs ++ ys) =
      match addAll cc xs with
      | some cc2 => addAll cc2 ys
      | none => none := by
  induction xs generalizing cc with
  | nil => simp [addAll]
  | cons hd tl ih =>
    obtain ⟨url, resp⟩ := hd
    rw [List.cons_append]
    show (match cc.add url resp with
          | some cc2 => addAll cc2 (tl ++ ys)
          | none => none) = _
    match hstep : cc.add url resp with
    | some cc2 =>
      show addAll cc2 (tl ++ ys) = _
      rw [ih cc2]
      have hr : addAll cc ((url, resp) :: tl) = addAll cc2 tl := by
        show (match cc.add url resp with
              | some cc3 => addAll cc3 tl
              | none => none) = addAll cc2 tl
        rw [hstep]
      rw [hr]
    | none =>
      have hr : addAll cc ((url, resp) :: tl) = none := by
        show (match cc.add url resp with
              | some cc3 => addAll cc3 tl
              | none => none) = none
        rw [hstep]
      rw [hr]

/-- C2: for a cache of capacity C ≥ 1, (a) after any sequence of Adds the
number of retrievable entries never exceeds C, and (b) inserting C+1
distinct URLs into the empty cache succeeds, leaves exactly C retrievable
entries — the final map is exactly the last C insertions — the first
(least-recently-inserted) URL misses, and every later URL still hits with
its stored response.  Get is non-mutating by construction, so reads cannot
change the eviction order. -/
theorem cache_capacity_fifo (C : Nat) (hC : 1 ≤ C)
    (us : List (String × ImgResponse))
    (hnd : (keys us).Nodup) (hlen : us.length = C + 1) :
    (∀ vs : List (String × ImgResponse),
      ∃ cc, addAll (newColorCache (C : Int)) vs = some cc
        ∧ cc.hmap.length ≤ C)
    ∧ ∃ cc, addAll (newColorCache (C : Int)) us = some cc
        ∧ cc.hmap = us.tail
        ∧ cc.hmap.length = C
        ∧ (cc.get (us.getD 0 ("", zeroResponse)).1).2 = false
        ∧ ∀ j, 1 ≤ j → j < us.length →
            cc.get (us.getD j ("", zeroResponse)).1 =
              ((us.getD j ("", zeroResponse)).2, true) := by
  have hCmax : 1 ≤ (newColorCache (C : Int)).max := by
    show (1 : Int) ≤ (C : Int)
    exact_mod_cast hC
  constructor
  · intro vs
    obtain ⟨cc, hall⟩ := addAll_total hCmax (newColorCache_inv _)
    obtain ⟨hinv, hmax⟩ := addAll_inv (newColorCache_inv _) hall
    refine ⟨cc, hall, ?_⟩
    have hle := hmap_length_le hinv
    rw [hmax] at hle
    simpa [newColorCache] using hle
  · cases us with
    | nil => simp at hlen
    | cons hd tl =>
      have htl : tl.length = C := by simpa using hlen
      have htlne : tl ≠ [] := by
        intro h
        rw [h] at htl
        simp at htl
        omega
      obtain ⟨ft, lp, htleq⟩ : ∃ ft lp, tl = ft ++ [lp] :=
        ⟨tl.dropLast, tl.getLast htlne,
          (List.dropLast_append_getLast htlne).symm⟩
      obtain ⟨u0, r0⟩ := hd
      obtain ⟨ul, rl⟩ := lp
      subst htleq
      have hkeysus : keys ((u0, r0) :: (ft ++ [(ul, rl)])) =
          (u0 :: keys ft) ++ [ul] := by
        simp [keys]
      rw [hkeysus] at hnd
      have hndcons : (u0 :: (keys ft ++ [ul])).Nodup := by
        simpa using hnd
      have hndfront : (keys ((u0, r0) :: ft)).Nodup := by
        have hsub : List.Sublist (u0 :: keys ft) ((u0 :: keys ft) ++ [ul]) :=
          List.sublist_append_left _ _
        have h2 := hsub.nodup hnd
        simpa [keys] using h2
      have hul : ul ∉ keys ((u0, r0) :: ft) := by
        intro hmem
        rcases List.nodup_append.mp hnd with ⟨_, _, hdisj⟩
        have hin1 : ul ∈ u0 :: keys ft := by simpa [keys] using hmem
        exact hdisj hin1 (List.mem_singleton_self ul)
      have hfrontlenN : ((u0, r0) :: ft).length = C := by
        have h1 : (ft ++ [(ul, rl)]).length = C := htl
        simp at h1 ⊢
        omega
      have hfrontlen : (((u0, r0) :: ft).length : Int) = (C : Int) := by
        exact_mod_cast hfrontlenN
      have hnc : newColorCache (C : Int) = fillState [] (C : Int) := rfl
      have hfill : addAll (fillState [] (C : Int)) ((u0, r0) :: ft) =
          some (fillState ([] ++ ((u0, r0) :: ft)) (C : Int)) :=
        fill_all ((u0, r0) :: ft) []
          (by simpa [keys] using hndfront)
          (by simp [hfrontlenN])
      have hfill2 : addAll (newColorCache (C : Int)) ((u0, r0) :: ft) =
          some (fillState ((u0, r0) :: ft) (C : Int)) := by
        rw [hnc]
        simpa using hfill
      have hover : (fillState ((u0, r0) :: ft) (C : Int)).add ul rl =
          some (fillState (ft ++ [(ul, rl)]) (C : Int)) :=
        fill_overflow rl hfrontlen.symm hul
      have hchain : addAll (newColorCache (C : Int))
          ((u0, r0) :: (ft ++ [(ul, rl)])) =
          some (fillState (ft ++ [(ul, rl)]) (C : Int)) := by
        have h1 := addAll_append (newColorCache (C : Int))
          ((u0, r0) :: ft) [(ul, rl)]
        rw [show ((u0, r0) :: ft) ++ [(ul, rl)] =
          (u0, r0) :: (ft ++ [(ul, rl)]) from rfl] at h1
        rw [h1, hfill2]
        show addAll (fillState ((u0, r0) :: ft) (C : Int)) [(ul, rl)] = _
        unfold addAll
        rw [hover]
        rfl
      have hkeys2 : keys (ft ++ [(ul, rl)]) = keys ft ++ [ul] := by
        simp [keys]
      have hndtl : (keys (ft ++ [(ul, rl)])).Nodup := by
        rw [hkeys2]
        exact (List.nodup_cons.mp hndcons).2
      refine ⟨fillState (ft ++ [(ul, rl)]) (C : Int), hchain, rfl, ?_, ?_, ?_⟩
      · show (ft ++ [(ul, rl)]).length = C
        exact htl
      · simp only [List.getD_cons_zero]
        have hu0 : u0 ∉ keys (ft ++ [(ul, rl)]) := by
          rw [hkeys2]
          exact (List.nodup_cons.mp hndcons).1
        have hfind : mapFind (ft ++ [(ul, rl)]) u0 = none :=
          mapFind_eq_none hu0
        simp only [ColorCache.get, fillState]
        rw [hfind]
      · intro j hj1 hj2
        obtain ⟨i, rfl⟩ : ∃ i, j = i + 1 := ⟨j - 1, by omega⟩
        have hi : i < (ft ++ [(ul, rl)]).length := by
          simp only [List.length_cons] at hj2
          omega
        simp only [List.getD_cons_succ]
        rw [List.getD_eq_getElem _ _ hi]
        have hmem : (ft ++ [(ul, rl)])[i] ∈ ft ++ [(ul, rl)] :=
          List.getElem_mem hi
        have hmem2 : ((ft ++ [(ul, rl)])[i].1, (ft ++ [(ul, rl)])[i].2) ∈
            ft ++ [(ul, rl)] := by
          rw [Prod.mk.eta]
          exact hmem
        have hfind : mapFind (ft ++ [(ul, rl)]) ((ft ++ [(ul, rl)])[i].1) =
            some ((ft ++ [(ul, rl)])[i].2) :=
          mapFind_of_mem_nodup hndtl hmem2
        simp only [ColorCache.get, fillState]
        rw [hfind]

/-- The cache state reached in the witness below: capacity 1, filled with
two distinct URLs, so only the second survives. -/
def cacheB : ColorCache :=
  { hmap := [("b", respB)], count := 1, max := 1, exp := ["b"] }

/-- Witness for cache_capacity_fifo: capacity 1, inserting the two
distinct URLs a then b evicts exactly a; a misses, b still hits. -/
theorem cache_capacity_fifo_witness :
    1 ≤ 1
    ∧ (keys [("a", respA), ("b", respB)]).Nodup
    ∧ addAll (newColorCache ((1 : Nat) : Int)) [("a", respA), ("b", respB)] =
        some cacheB
    ∧ (cacheB.get "a").2 = false
    ∧ cacheB.get "b" = (respB, true)
    ∧ cacheB.hmap.length = 1 := by
  have h := (cache_capacity_fifo 1 (le_refl 1) [("a", respA), ("b", respB)]
    (by decide) rfl).2
  obtain ⟨cc, hall, hhm, hlen2, hmiss, hhits⟩ := h
  have hcc : cc = cacheB := by
    have h2 : some cc = some cacheB := by
      rw [← hall]
      rfl
    exact Option.some_inj.mp h2
  subst hcc
  refine ⟨le_refl 1, by decide, by rfl, ?_, ?_, hlen2⟩
  · simpa using hmiss
  · have h3 := hhits 1 (le_refl 1) (by decide)
    simpa using h3

/-- Outcome of the select in the worker loop of src/06.go lines 60-74:
either the local computation answered first, or the shared cancel channel
was found closed, or the two-second timer fired first.  Which case wins
is scheduling nondeterminism, so it is an input of the model. -/
inductive SelectOutcome where
  | response (r : ImgResponse)
  | cancelled
  | timedOut
deriving DecidableEq, Repr

/-- The response sent back in the timeout case of src/06.go lines 67-73. -/
def timeoutResp : ImgResponse := { hex := "", err := some "timeout" }

/-- State of a Go channel as far as close is concerned. -/
inductive ChanState where
  | opened
  | closed
deriving DecidableEq, Repr

/-- Result of the built-in close: closing an open channel closes it;
closing an already-closed channel panics. -/
inductive CloseOutcome where
  | ok (s : ChanState)
  | panicked
deriving DecidableEq, Repr

/-- Go close(ch) semantics on the channel state. -/
def closeChan : ChanState → CloseOutcome
  | ChanState.opened => CloseOutcome.ok ChanState.closed
  | ChanState.closed => CloseOutcome.panicked

/-- Image (wikimg.go lines 234-237): the URL and the request's Cancel
channel, reduced to its open/closed state. -/
structure Image where
  url : String
  reqCancel : ChanState
deriving DecidableEq, Repr

/-- Image.Cancel (wikimg.go lines 264-266): close(img.req.Cancel), with no
guard against the channel already being closed. -/
def Image.cancel (img : Image) : CloseOutcome := closeChan img.reqCancel

/-- Issuing the broadcast twice in a row: close, then close again on the
resulting state. -/
def broadcastTwice (c : ChanState) : CloseOutcome :=
  match closeChan c with
  | CloseOutcome.ok c2 => closeChan c2
  | CloseOutcome.panicked => CloseOutcome.panicked

/-- C5 counterexample: cancelling an image whose cancel channel is already
closed — a second broadcast of the same session signal — panics instead of
being an idempotent no-op. -/
theorem double_cancel_panics :
    Image.cancel { url := "u", reqCancel := ChanState.opened } =
      CloseOutcome.ok ChanState.closed
    ∧ Image.cancel { url := "u", reqCancel := ChanState.closed } =
      CloseOutcome.panicked := by
  refine ⟨rfl, rfl⟩

/-- C5 amended: the first broadcast of a session's cancellation signal
succeeds when the signal is still open, but broadcasting twice always
faults — close of a closed channel panics — so the broadcast is safe at
most once and is not idempotent. -/
theorem cancel_broadcast_once (img : Image)
    (h : img.reqCancel = ChanState.opened) :
    Image.cancel img = CloseOutcome.ok ChanState.closed
    ∧ broadcastTwice img.reqCancel = CloseOutcome.panicked := by
  unfold Image.cancel broadcastTwice
  rw [h]
  exact ⟨rfl, rfl⟩

/-- Witness for cancel_broadcast_once on a concrete open-channel image. -/
theorem cancel_broadcast_once_witness :
    ({ url := "u", reqCancel := ChanState.opened } : Image).reqCancel =
      ChanState.opened
    ∧ Image.cancel { url := "u", reqCancel := ChanState.opened } =
      CloseOutcome.ok ChanState.closed
    ∧ broadcastTwice ChanState.opened = CloseOutcome.panicked :=
  ⟨rfl,
   (cancel_broadcast_once { url := "u", reqCancel := ChanState.opened } rfl).1,
   (cancel_broadcast_once { url := "u", reqCancel := ChanState.opened } rfl).2⟩

/-- Whether a select outcome is the cancel case. -/
def isCancelled : SelectOutcome → Bool
  | SelectOutcome.cancelled => true
  | _ => false

/-- Whether a select outcome is the timeout case. -/
def isTimedOut : SelectOutcome → Bool
  | SelectOutcome.timedOut => true
  | _ => false

/-- Whether a channel state is closed. -/
def chanClosed : ChanState → Bool
  | ChanState.opened => false
  | ChanState.closed => true

/-- What one worker iteration does for one item (src/06.go lines 59-74):
the responses it sends, the state of the session's shared cancel channel
afterwards, and whether it panicked. -/
structure WorkerEffect where
  emitted : List ImgResponse
  cancel : ChanState
  panicked : Bool
deriving DecidableEq, Repr

/-- The three select cases of src/06.go lines 60-74, run against the
current state of the session's shared cancel channel.  A received
response is forwarded — one emission.  The cancel case (schedulable only
once the channel is closed, since nothing is ever sent on it) just breaks
out of the select, emitting nothing.  The timeout case first runs
close(req.cancel) at line 70 and only then sends the timeout error: when
the channel is already closed — two items of one session timing out
concurrently — that close panics and the send is never reached. -/
def workerSelect (cancel : ChanState) : SelectOutcome → WorkerEffect
  | SelectOutcome.response r =>
    { emitted := [r], cancel := cancel, panicked := false }
  | SelectOutcome.cancelled =>
    { emitted := [], cancel := cancel, panicked := false }
  | SelectOutcome.timedOut =>
    match closeChan cancel with
    | CloseOutcome.ok c2 =>
      { emitted := [timeoutResp], cancel := c2, panicked := false }
    | CloseOutcome.panicked =>
      { emitted := [], cancel := cancel, panicked := true }

/-- Total number of responses a session's items emit, threading the
cancel channel state through the per-item effects; an unrecovered panic
kills the Go process, so items after it emit nothing. -/
def runSession (cancel : ChanState) : List SelectOutcome → Nat
  | [] => 0
  | o :: os =>
    if (workerSelect cancel o).panicked then
      (workerSelect cancel o).emitted.length
    else
      (workerSelect cancel o).emitted.length +
        runSession (workerSelect cancel o).cancel os

/-- C1 counterexample: an item whose select takes the cancel case emits no
response at all — it is silently dropped, with no CancelledError result
synthesized for it anywhere — and a timed-out item that finds the session
signal already closed panics at close(req.cancel) before its send, also
emitting nothing.  Either way the claimed one result per item fails. -/
theorem worker_cancel_drops_response :
    (workerSelect ChanState.closed SelectOutcome.cancelled).emitted = []
    ∧ ¬ (workerSelect ChanState.closed SelectOutcome.cancelled).emitted.length
        = 1
    ∧ (workerSelect ChanState.closed SelectOutcome.timedOut).emitted = []
    ∧ (workerSelect ChanState.closed SelectOutcome.timedOut).panicked = true := by
  refine ⟨rfl, by decide, rfl, rfl⟩

/-- C1 amended: per item, the select emits exactly one response in the
response case and in the timeout case that finds the session's cancel
signal still open (broadcasting it); it emits nothing in the cancel case,
and nothing in the timeout case that finds the signal already broadcast,
where the close panics.  Consequently a session emits at most as many
responses as it has submitted items, and can emit fewer. -/
theorem worker_emission_counts (c : ChanState) (os : List SelectOutcome) :
    (∀ o : SelectOutcome,
      (workerSelect c o).emitted.length =
        (if isCancelled o || (isTimedOut o && chanClosed c) then 0 else 1)
      ∧ (workerSelect c o).panicked = (isTimedOut o && chanClosed c))
    ∧ runSession c os ≤ os.length := by
  constructor
  · intro o
    cases c <;> cases o <;> exact ⟨rfl, rfl⟩
  · induction os generalizing c with
    | nil => exact Nat.le_refl 0
    | cons o os ih =>
      have h1 : (workerSelect c o).emitted.length ≤ 1 := by
        cases c <;> cases o <;> simp [workerSelect, closeChan, timeoutResp]
      have h2 := ih ((workerSelect c o).cancel)
      unfold runSession
      by_cases hp : (workerSelect c o).panicked
      · rw [if_pos hp]
        simp only [List.length_cons]
        omega
      · rw [if_neg hp]
        simp only [List.length_cons]
        omega

/-- One palette-mapped pixel color: the 8-bit red, green and blue of the
xterm256 palette entry the pixel maps to.  The palette lookup itself is an
excluded external collaborator, so pixels are modelled directly by their
palette entry. -/
structure Rgb where
  r : Nat
  g : Nat
  b : Nat
deriving DecidableEq, Repr

/-- A color is gray when its palette entry has equal red, green and blue
(wikimg.go line 224). -/
def isGray (c : Rgb) : Bool := c.r == c.g && c.g == c.b

/-- A decoded image, abstracted to its bounds and the palette-mapped color
of each pixel: px x y is the palette entry for img.At(x, y). -/
structure PixelGrid where
  width : Nat
  height : Nat
  px : Nat → Nat → Rgb

/-- The inner y loop of firstColor (wikimg.go lines 203-227) over the
pixels of column x listed in ys: each iteration overwrites the running
color with the current pixel's color; a non-gray pixel breaks out of this
inner loop only. -/
def scanPixels (g : PixelGrid) (x : Nat) : List Nat → Rgb → Rgb
  | [], acc => acc
  | y :: ys, _ =>
    let c := g.px x y
    if isGray c then scanPixels g x ys c else c

/-- The outer x loop of firstColor (wikimg.go lines 202-228): columns are
scanned left to right, the running color carries over from one column to
the next, and the function returns whatever the scan of the last column
left behind — the break above does not leave this outer loop. -/
def scanColumns (g : PixelGrid) : List Nat → Rgb → Rgb
  | [], acc => acc
  | x :: xs, acc =>
    scanColumns g xs (scanPixels g x (List.range g.height) acc)

/-- firstColor (wikimg.go lines 186-232), with the named return values
starting from the zero color. -/
def firstColor (g : PixelGrid) : Rgb :=
  scanColumns g (List.range g.width) { r := 0, g := 0, b := 0 }

/-- The pixel coordinates in row-major order from the top left: all of row
y = 0 left to right, then row 1, and so on. -/
def rowMajorOrder (g : PixelGrid) : List (Nat × Nat) :=
  (List.range g.height).flatMap
    (fun y => (List.range g.width).map (fun x => (x, y)))

/-- Modelled from the spec: the color C7 describes — the palette color of
the first non-grayscale pixel in row-major order from the top left, or the
last pixel's color when every pixel is grayscale. -/
def rowMajorFirstNonGray (g : PixelGrid) : Rgb :=
  match (rowMajorOrder g).find? (fun q => ! isGray (g.px q.1 q.2)) with
  | some q => g.px q.1 q.2
  | none => g.px (g.width - 1) (g.height - 1)

/-- A 2-by-1 image: a red pixel at (0,0) and a gray pixel at (1,0). -/
def c7grid : PixelGrid :=
  { width := 2, height := 1,
    px := fun x _ =>
      if x = 0 then { r := 255, g := 0, b := 0 }
      else { r := 128, g := 128, b := 128 } }

/-- C7 evaluation: on the 2-by-1 image whose only non-gray pixel is the
first one, firstColor returns the gray last-column pixel, not the red
first pixel the claim — and the function's own doc comment — promise: the
break leaves only the inner loop, so the result comes from the last
column alone. -/
theorem firstColor_not_row_major :
    firstColor c7grid = { r := 128, g := 128, b := 128 }
    ∧ rowMajorFirstNonGray c7grid = { r := 255, g := 0, b := 0 }
    ∧ isGray { r := 255, g := 0, b := 0 } = false
    ∧ firstColor c7grid ≠ rowMajorFirstNonGray c7grid := by
  refine ⟨rfl, rfl, rfl, by decide⟩

end Routine
